import Mathlib

/-!
# Verification of `little_book_of_programming_challenges`

Shallow embedding in Lean 4 of the pure parts of selected challenge
programs from the repository, together with proofs about them:

* `challenges/c25` — Blackjack: cards, deck, hand evaluation, game loop.
* `challenges/c19` — ASCII Caesar cipher: `shift_char`, `apply_cipher`.
* `challenges/c12` — factor calculator: `factors`.
* `challenges/c26` — Mastermind: `evaluate_guess`.

Rust `u32`/`u64` values are modelled as `Nat` (with explicitly checked
variants where overflow or division by zero matters), `i32` as `Int`
(with a checked-addition variant where overflow matters), `Vec<T>` and
string contents as `List`, and Rust's `Option<T>` as `Option T`.

The file is laid out with all definitions first, then the proofs.
-/

/-! ## Definitions: c25 Blackjack -/

namespace C25

/-- `Suite` from c25 (the source spells it "Suite"). -/
inductive Suite where
  | Hearts
  | Diamonds
  | Clubs
  | Spades
  deriving DecidableEq, Repr, Fintype

/-- `Rank` from c25. -/
inductive Rank where
  | Ace
  | Two
  | Three
  | Four
  | Five
  | Six
  | Seven
  | Eight
  | Nine
  | Ten
  | Jack
  | Queen
  | King
  deriving DecidableEq, Repr, Fintype

/-- `Card` from c25: a suit together with a rank (field named `value` in the source). -/
structure Card where
  suit : Suite
  value : Rank
  deriving DecidableEq, Repr, Fintype

/-- `Deck` from c25: a vector of cards. `Vec::push` appends at the end and
`Vec::pop` removes from the end, so the end of the list is the top of the deck. -/
structure Deck where
  cards : List Card
  deriving DecidableEq, Repr

/-- The suit iteration order of `Deck::new`. -/
def allSuites : List Suite :=
  [Suite.Hearts, Suite.Diamonds, Suite.Clubs, Suite.Spades]

/-- The rank iteration order of `Deck::new`. -/
def allRanks : List Rank :=
  [Rank.Ace, Rank.Two, Rank.Three, Rank.Four, Rank.Five, Rank.Six, Rank.Seven,
   Rank.Eight, Rank.Nine, Rank.Ten, Rank.Jack, Rank.Queen, Rank.King]

/-- `Deck::new` from c25: the nested `for` loops push one card per
(suit, rank) pair, suits outer, ranks inner. -/
def Deck.new : Deck :=
  ⟨allSuites.flatMap fun suit => allRanks.map fun value => ⟨suit, value⟩⟩

/-- `Deck::deal` from c25: `self.cards.pop()` removes and returns the last
element of the vector (the top of the deck), or `None` when empty.
Rust mutates the deck in place; we return the dealt card with the new deck. -/
def Deck.deal (d : Deck) : Option Card × Deck :=
  (d.cards.getLast?, ⟨d.cards.dropLast⟩)

/-- Dealing repeatedly: the deck left after `n` calls to `deal`. -/
def dealRepeat (d : Deck) : Nat → Deck
  | 0 => d
  | n + 1 => (dealRepeat d n).deal.2

/-- `Hand` from c25. -/
structure Hand where
  cards : List Card
  deriving DecidableEq, Repr

/-- `Hand::new` from c25. -/
def Hand.new : Hand := ⟨[]⟩

/-- `Hand::add_card` from c25: `self.cards.push(card)`. -/
def Hand.add_card (h : Hand) (card : Card) : Hand :=
  ⟨h.cards ++ [card]⟩

/-- The per-card update of the first pass of `Hand::evaluate`: the pair is
(`sum`, `ace_count`); non-Ace cards add their fixed value to `sum`,
Aces increment `ace_count`. -/
def evalStep (p : Nat × Nat) (card : Card) : Nat × Nat :=
  match card.value with
  | Rank.Ace => (p.1, p.2 + 1)
  | Rank.Two => (p.1 + 2, p.2)
  | Rank.Three => (p.1 + 3, p.2)
  | Rank.Four => (p.1 + 4, p.2)
  | Rank.Five => (p.1 + 5, p.2)
  | Rank.Six => (p.1 + 6, p.2)
  | Rank.Seven => (p.1 + 7, p.2)
  | Rank.Eight => (p.1 + 8, p.2)
  | Rank.Nine => (p.1 + 9, p.2)
  | Rank.Ten => (p.1 + 10, p.2)
  | Rank.Jack => (p.1 + 10, p.2)
  | Rank.Queen => (p.1 + 10, p.2)
  | Rank.King => (p.1 + 10, p.2)

/-- The second pass of `Hand::evaluate`: `for _ in 0..ace_count`, each
iteration adds 11 when `sum + 11 <= 21`, else adds 1. `ace_count` itself
is not modified by this loop. -/
def addAces : Nat → Nat → Nat
  | 0, sum => sum
  | k + 1, sum => addAces k (if sum + 11 ≤ 21 then sum + 11 else sum + 1)

/-- The final loop of `Hand::evaluate`:
`while sum > 21 && ace_count > 0 { sum -= 10; ace_count -= 1; }`.
Note that the loop bound is the hand's TOTAL ace count (the second pass
did not decrement it), not the number of Aces that were added as 11. -/
def convertAces : Nat → Nat → Nat
  | sum, 0 => sum
  | sum, k + 1 => if sum > 21 then convertAces (sum - 10) k else sum

/-- `Hand::evaluate` from c25, composed of the three passes above. -/
def Hand.evaluate (h : Hand) : Nat :=
  let p := h.cards.foldl evalStep (0, 0)
  convertAces (addAces p.2 p.1) p.2

/-- The fixed value of a non-Ace card: face value for Two..Ten, 10 for
Jack/Queen/King; Aces are listed with value 0 here since they are counted
separately by `evalStep`. -/
def fixedValue (r : Rank) : Nat :=
  match r with
  | Rank.Ace => 0
  | Rank.Two => 2
  | Rank.Three => 3
  | Rank.Four => 4
  | Rank.Five => 5
  | Rank.Six => 6
  | Rank.Seven => 7
  | Rank.Eight => 8
  | Rank.Nine => 9
  | Rank.Ten => 10
  | Rank.Jack => 10
  | Rank.Queen => 10
  | Rank.King => 10

/-- The non-Ace base sum of a hand (what pass 1 accumulates in `sum`). -/
def baseSum (h : Hand) : Nat :=
  (h.cards.map fun c => fixedValue c.value).sum

/-- The number of Aces in a hand (what pass 1 accumulates in `ace_count`). -/
def aceCount (h : Hand) : Nat :=
  (h.cards.filter fun c => c.value = Rank.Ace).length

/-- The Ace resolution described by the spec, for comparison with the code's
`Hand.evaluate`: the tentative second pass additionally counts how many Aces
were added as 11, and the final conversion loop runs over that count, so only
Aces previously added as 11 are eligible for conversion. -/
def specAddAces : Nat → Nat → Nat → Nat × Nat
  | 0, sum, elevens => (sum, elevens)
  | k + 1, sum, elevens =>
      if sum + 11 ≤ 21 then specAddAces k (sum + 11) (elevens + 1)
      else specAddAces k (sum + 1) elevens

/-- The hand score as the spec describes it (see `specAddAces`). -/
def specEvaluate (h : Hand) : Nat :=
  let p := specAddAces (aceCount h) (baseSum h) 0
  convertAces p.1 p.2

/-- A hand with one Ace and a non-Ace base of 22: King, Queen, Two, Ace. -/
def bustedHandA : Hand :=
  ⟨[⟨Suite.Hearts, Rank.King⟩, ⟨Suite.Diamonds, Rank.Queen⟩,
    ⟨Suite.Clubs, Rank.Two⟩, ⟨Suite.Spades, Rank.Ace⟩]⟩

/-- A hand with one Ace and a non-Ace base of 30: Ten, Jack, Queen, Ace. -/
def bustedHandB : Hand :=
  ⟨[⟨Suite.Hearts, Rank.Ten⟩, ⟨Suite.Diamonds, Rank.Jack⟩,
    ⟨Suite.Clubs, Rank.Queen⟩, ⟨Suite.Spades, Rank.Ace⟩]⟩

/-- The Two of Hearts. -/
def twoOfHearts : Card := ⟨Suite.Hearts, Rank.Two⟩

/-- A synthetic Ace-free hand of 2^31 copies of the Two of Hearts: its raw
card-value total is 2^32, one more than `u32Max`, so pass 1 of
`Hand::evaluate` overflows the `u32` sum. -/
def hugeHand : Hand := ⟨List.replicate 2147483648 twoOfHearts⟩

/-- `Move` from c25. -/
inductive Move where
  | Hit
  | Stand
  deriving DecidableEq, Repr

/-- How the c25 `main` game loop ends, or `Pending` when the modelled list
of prompted moves runs out while the loop would keep prompting. `Bust`
models the "Bust! Your hand is over 21." break after a hit (an immediate
player loss with no score comparison); `DeckEmptyOnHit` the "No more cards
in the deck." break; `DealerDealFailed` the `deal().unwrap()` panic on an
exhausted deck during the dealer turn; `Compared` carries the two scores
and the result of `player_score.cmp(&dealer_score)` (`.lt` prints
"You lose!", `.eq` "It's a tie!", `.gt` "You win!"). -/
inductive GameResult where
  | Pending (player : Hand) (deck : Deck)
  | Bust (player : Hand)
  | DeckEmptyOnHit (player : Hand)
  | DealerDealFailed
  | Compared (playerScore dealerScore : Nat) (verdict : Ordering)
  deriving DecidableEq, Repr

/-- The game loop of c25 `main`, driven by the list of moves returned by
`prompt_for_move`. On `Stand` the dealer hand receives two dealt cards and
the scores are compared; on `Hit` one card is drawn into the player hand and
the loop ends with `Bust` when the new hand evaluates above `BLACKJACK = 21`,
otherwise it continues with the remaining moves. -/
def gameLoop : Hand → Deck → List Move → GameResult
  | ph, d, [] => GameResult.Pending ph d
  | ph, d, Move.Stand :: _ =>
      match d.deal with
      | (some c1, d1) =>
          match d1.deal with
          | (some c2, _) =>
              let dealer := (Hand.new.add_card c1).add_card c2
              GameResult.Compared ph.evaluate dealer.evaluate
                (compare ph.evaluate dealer.evaluate)
          | (none, _) => GameResult.DealerDealFailed
      | (none, _) => GameResult.DealerDealFailed
  | ph, d, Move.Hit :: ms =>
      match d.deal with
      | (some c, d1) =>
          let ph1 := ph.add_card c
          if ph1.evaluate > 21 then GameResult.Bust ph1
          else gameLoop ph1 d1 ms
      | (none, _) => GameResult.DeckEmptyOnHit ph

/-- Concrete game-loop data: a Ten+Ten hand. -/
def twentyHand : Hand := ⟨[⟨Suite.Hearts, Rank.Ten⟩, ⟨Suite.Spades, Rank.Ten⟩]⟩

/-- Concrete game-loop data: a deck holding a single Five. -/
def fiveDeck : Deck := ⟨[⟨Suite.Hearts, Rank.Five⟩]⟩

/-- Concrete game-loop data: a Ten+Five hand. -/
def fifteenHand : Hand := ⟨[⟨Suite.Hearts, Rank.Ten⟩, ⟨Suite.Spades, Rank.Five⟩]⟩

/-- Concrete game-loop data: a deck holding a Two and a Three. -/
def smallDeck : Deck := ⟨[⟨Suite.Hearts, Rank.Two⟩, ⟨Suite.Hearts, Rank.Three⟩]⟩

/-- The largest `u32` value (2^32 - 1), for the checked arithmetic model. -/
def u32Max : Nat := 4294967295

/-- Checked `u32` addition: `none` models the overflow panic of a debug
build (and the point where a release build would silently wrap). -/
def checkedAdd32 (a b : Nat) : Option Nat :=
  if a + b ≤ u32Max then some (a + b) else none

/-- Checked `u32` subtraction: `none` models the underflow panic. -/
def checkedSub32 (a b : Nat) : Option Nat :=
  if b ≤ a then some (a - b) else none

/-- Checked increment of `ace_count` in pass 1 of `Hand::evaluate`. -/
def bumpAce (p : Nat × Nat) : Option (Nat × Nat) :=
  match checkedAdd32 p.2 1 with
  | some a => some (p.1, a)
  | none => none

/-- Checked addition of a card value to `sum` in pass 1 of `Hand::evaluate`. -/
def bumpSum (p : Nat × Nat) (v : Nat) : Option (Nat × Nat) :=
  match checkedAdd32 p.1 v with
  | some s => some (s, p.2)
  | none => none

/-- Pass 1 of `Hand::evaluate` with checked `u32` arithmetic. -/
def evalStepChecked (p : Nat × Nat) (card : Card) : Option (Nat × Nat) :=
  match card.value with
  | Rank.Ace => bumpAce p
  | Rank.Two => bumpSum p 2
  | Rank.Three => bumpSum p 3
  | Rank.Four => bumpSum p 4
  | Rank.Five => bumpSum p 5
  | Rank.Six => bumpSum p 6
  | Rank.Seven => bumpSum p 7
  | Rank.Eight => bumpSum p 8
  | Rank.Nine => bumpSum p 9
  | Rank.Ten => bumpSum p 10
  | Rank.Jack => bumpSum p 10
  | Rank.Queen => bumpSum p 10
  | Rank.King => bumpSum p 10

/-- Pass 2 of `Hand::evaluate` with checked `u32` arithmetic: the
comparison `sum + 11 <= 21` itself computes `sum + 11` in `u32`. -/
def addAcesChecked : Nat → Nat → Option Nat
  | 0, sum => some sum
  | k + 1, sum => do
      let t ← checkedAdd32 sum 11
      if t ≤ 21 then addAcesChecked k t
      else do
        let t1 ← checkedAdd32 sum 1
        addAcesChecked k t1

/-- The final loop of `Hand::evaluate` with checked `u32` arithmetic. -/
def convertAcesChecked : Nat → Nat → Option Nat
  | sum, 0 => some sum
  | sum, k + 1 =>
      if sum > 21 then do
        let s ← checkedSub32 sum 10
        convertAcesChecked s k
      else some sum

/-- `Hand::evaluate` with every `u32` operation checked; `none` marks an
arithmetic failure that the unchecked `Hand.evaluate` model cannot see. -/
def evaluateChecked (h : Hand) : Option Nat := do
  let p ← h.cards.foldlM evalStepChecked (0, 0)
  let s ← addAcesChecked p.2 p.1
  convertAcesChecked s p.2

end C25

/-! ## Definitions: c19 Caesar cipher -/

namespace C19

/-- `shift_char` from c19. `c.is_ascii()` is `c as u32 <= 127`. On the ASCII
branch the code computes `(pos + shift).rem_euclid(128)` in `i32` (modelled
over `Int`; `%` on `Int` is `Int.emod`, which agrees with `rem_euclid` for a
positive modulus) and converts back with
`char::from_u32(shifted as u32).unwrap_or(c)`; the result of
`rem_euclid 128` lies in `[0, 128)`, where every code point is a valid
scalar value, so `from_u32` always succeeds and `Char.ofNat` models it
exactly. The `i32` addition `pos + shift` can overflow for `shift` near the
`i32` bounds; `Int` has no overflow, so this definition is faithful exactly
when the addition stays in `i32` range (see `shiftCharChecked`). -/
def shift_char (c : Char) (shift : Int) : Char :=
  if ¬ c.toNat ≤ 127 then c
  else Char.ofNat (((c.toNat : Int) + shift) % 128).toNat

/-- `apply_cipher` from c19: maps `shift_char` over the characters of the text. -/
def apply_cipher (text : List Char) (shift : Int) : List Char :=
  text.map fun c => shift_char c shift

/-- The smallest `i32` value, -2^31. -/
def i32Min : Int := -2147483648

/-- The largest `i32` value, 2^31 - 1. -/
def i32Max : Int := 2147483647

/-- Checked `i32` addition: `none` models the overflow panic of a debug
build (and the point where a release build would silently wrap). -/
def checkedAddI32 (a b : Int) : Option Int :=
  if i32Min ≤ a + b ∧ a + b ≤ i32Max then some (a + b) else none

/-- `shift_char` with the `i32` addition `pos + shift` checked. -/
def shiftCharChecked (c : Char) (shift : Int) : Option Char :=
  if ¬ c.toNat ≤ 127 then some c
  else do
    let s ← checkedAddI32 (c.toNat : Int) shift
    pure (Char.ofNat (s % 128).toNat)

/-- `apply_cipher` with the checked `shift_char`. -/
def applyCipherChecked : List Char → Int → Option (List Char)
  | [], _ => some []
  | c :: rest, shift => do
      let x ← shiftCharChecked c shift
      let xs ← applyCipherChecked rest shift
      pure (x :: xs)

end C19

/-! ## Definitions: c12 factor calculator -/

namespace C12

/-- The loop body of `factors` from c12 at index `i`: push `i` when it
divides `n`, and also `n / i` unless that equals `i` (the perfect-square
guard). -/
def factorStep (n i : Nat) : List Nat :=
  if n % i = 0 then if i ≠ n / i then [i, n / i] else [i] else []

/-- The `for i in 1..=sqrt_n` loop of `factors`: concatenation of the
pushes, in loop order. -/
def factorsLoop (n bound : Nat) : List Nat :=
  (List.range' 1 bound).flatMap (factorStep n)

/-- Insertion of an element into an ascending list, for the model of
`Vec::sort`. -/
def insertAsc (x : Nat) : List Nat → List Nat
  | [] => [x]
  | y :: ys => if x ≤ y then x :: y :: ys else y :: insertAsc x ys

/-- Ascending sort, modelling `result.sort()` (on `Nat` keys a stable sort
and any other correct sort agree). -/
def sortAsc : List Nat → List Nat
  | [] => []
  | x :: xs => insertAsc x (sortAsc xs)

/-- `factors` from c12, with the loop bound as an explicit parameter: the
source computes the bound as `(n as f64).sqrt() as u64`, a saturating
float-to-int cast of a hardware square root; its exact value is irrelevant
to the claims proved here (they hold for every bound), so the bound is kept
abstract. -/
def factors (n bound : Nat) : List Nat :=
  sortAsc (factorsLoop n bound)

/-- Checked `u64` remainder: `none` models the division-by-zero panic. -/
def checkedMod64 (a b : Nat) : Option Nat :=
  if b = 0 then none else some (a % b)

/-- Checked `u64` division: `none` models the division-by-zero panic. -/
def checkedDiv64 (a b : Nat) : Option Nat :=
  if b = 0 then none else some (a / b)

/-- The loop body of `factors` with checked `u64` division and remainder. -/
def factorStepChecked (n i : Nat) : Option (List Nat) := do
  let m ← checkedMod64 n i
  if m = 0 then do
    let q ← checkedDiv64 n i
    if i ≠ q then pure [i, q] else pure [i]
  else pure []

/-- The `factors` loop with checked arithmetic, in loop order. -/
def factorsLoopChecked (n bound : Nat) : Option (List Nat) :=
  (List.range' 1 bound).foldlM
    (fun acc i => do
      let step ← factorStepChecked n i
      pure (acc ++ step))
    []

/-- `factors` with checked `u64` arithmetic (the sort involves no
arithmetic and cannot fail). -/
def factorsChecked (n bound : Nat) : Option (List Nat) :=
  (factorsLoopChecked n bound).map sortAsc

end C12

/-! ## Definitions: c26 Mastermind -/

namespace C26

/-- `GuessStats` from c26. -/
structure GuessStats where
  correct_digits : Nat
  correct_positions : Nat
  deriving DecidableEq, Repr

/-- Pass 1 of `evaluate_guess` from c26: fold over the zipped character
sequences (Rust's `zip`, like `List.zip`, truncates to the shorter input),
adding 1 whenever the two characters agree. -/
def countPositions (guess target : List Char) : Nat :=
  (guess.zip target).foldl (fun acc p => if p.1 = p.2 then acc + 1 else acc) 0

/-- Pass 2 of `evaluate_guess` from c26: for every distinct character `c` of
the guess (a key of the guess `HashMap`), add
`min (count of c in guess) (count of c in target)` — the `match` on
`gcount.cmp(&tcount)` takes `gcount` when it is less, else `tcount`; keys
absent from the target contribute nothing. Iteration order of the `HashMap`
does not affect the sum, so the first-occurrence order of `List.dedup` is a
faithful model. -/
def countDigits (guess target : List Char) : Nat :=
  (guess.dedup.map fun c => min (guess.count c) (target.count c)).sum

/-- `evaluate_guess` from c26. -/
def evaluate_guess (guess target : List Char) : GuessStats :=
  ⟨countDigits guess target, countPositions guess target⟩

end C26

/-! ## Proofs: c25 hand evaluation -/

/-- `some a >>= f` reduces to `f a`; stated as an equation for rewriting
inside `do`-blocks over `Option`. -/
theorem some_bind_eq {α β : Type} (a : α) (f : α → Option β) :
    (some a >>= f) = f a := rfl

namespace C25

theorem foldl_evalStep (cards : List Card) (s a : Nat) :
    cards.foldl evalStep (s, a) =
      (s + (cards.map fun c => fixedValue c.value).sum,
       a + (cards.filter fun c => c.value = Rank.Ace).length) := by
  induction cards generalizing s a with
  | nil => simp
  | cons c rest ih =>
    cases hc : c.value <;>
      simp [evalStep, hc, ih, fixedValue, List.filter, Nat.add_assoc,
        Nat.add_comm, Nat.add_left_comm]

theorem evaluate_eq (h : Hand) :
    h.evaluate = convertAces (addAces (aceCount h) (baseSum h)) (aceCount h) := by
  show convertAces
      (addAces (h.cards.foldl evalStep (0, 0)).2 (h.cards.foldl evalStep (0, 0)).1)
      (h.cards.foldl evalStep (0, 0)).2 = _
  rw [foldl_evalStep]
  simp [baseSum, aceCount]

theorem gameLoop_hit (ph : Hand) (d : Deck) (ms : List Move) :
    gameLoop ph d (Move.Hit :: ms)
      = match d.deal with
        | (some c, d1) =>
            if (ph.add_card c).evaluate > 21 then GameResult.Bust (ph.add_card c)
            else gameLoop (ph.add_card c) d1 ms
        | (none, _) => GameResult.DeckEmptyOnHit ph := rfl

theorem gameLoop_stand (ph : Hand) (d : Deck) (ms : List Move) :
    gameLoop ph d (Move.Stand :: ms)
      = match d.deal with
        | (some c1, d1) =>
            match d1.deal with
            | (some c2, _) =>
                GameResult.Compared ph.evaluate
                  ((Hand.new.add_card c1).add_card c2).evaluate
                  (compare ph.evaluate ((Hand.new.add_card c1).add_card c2).evaluate)
            | (none, _) => GameResult.DealerDealFailed
        | (none, _) => GameResult.DealerDealFailed := rfl

theorem two_card_evaluate_le (c1 c2 : Card) :
    ((Hand.new.add_card c1).add_card c2).evaluate ≤ 21 := by
  revert c1 c2
  decide

theorem gameLoop_compared (ms : List Move) :
    ∀ (ph : Hand) (d : Deck) (ps ds : Nat) (o : Ordering),
      ph.evaluate ≤ 21 →
      gameLoop ph d ms = GameResult.Compared ps ds o →
      o = compare ps ds ∧ ps ≤ 21 ∧ ds ≤ 21 := by
  induction ms with
  | nil =>
    intro ph d ps ds o hp heq
    simp [gameLoop] at heq
  | cons m rest ih =>
    intro ph d ps ds o hp heq
    cases m with
    | Stand =>
      rw [gameLoop_stand] at heq
      split at heq
      · split at heq
        · injection heq with h1 h2 h3
          subst h1
          subst h2
          subst h3
          exact ⟨rfl, hp, two_card_evaluate_le _ _⟩
        · exact absurd heq (by simp)
      · exact absurd heq (by simp)
    | Hit =>
      rw [gameLoop_hit] at heq
      split at heq
      next c d1 hdeal =>
        by_cases hb : (ph.add_card c).evaluate > 21
        · rw [if_pos hb] at heq
          exact absurd heq (by simp)
        · rw [if_neg hb] at heq
          exact ih (ph.add_card c) d1 ps ds o (by omega) heq
      next =>
        exact absurd heq (by simp)

theorem bumpSum_mk (s a v : Nat) (h : s + v ≤ u32Max) :
    bumpSum (s, a) v = some (s + v, a) := by
  simp [bumpSum, checkedAdd32, h]

theorem bumpAce_mk (s a : Nat) (h : a + 1 ≤ u32Max) :
    bumpAce (s, a) = some (s, a + 1) := by
  simp [bumpAce, checkedAdd32, h]

theorem foldlM_evalStepChecked (cards : List Card) :
    ∀ s a : Nat,
      s + (cards.map fun c => fixedValue c.value).sum ≤ u32Max →
      a + (cards.filter fun c => c.value = Rank.Ace).length ≤ u32Max →
      cards.foldlM (m := Option) evalStepChecked (s, a)
        = some (cards.foldl evalStep (s, a)) := by
  induction cards with
  | nil =>
    intro s a _ _
    rfl
  | cons c rest ih =>
    intro s a hs ha
    have hs' : s + fixedValue c.value
        + (rest.map fun x => fixedValue x.value).sum ≤ u32Max := by
      simp only [List.map_cons, List.sum_cons] at hs
      omega
    rw [List.foldlM_cons, List.foldl_cons]
    cases hc : c.value
    case Ace =>
      have ha' : a + 1
          + (rest.filter fun x => x.value = Rank.Ace).length ≤ u32Max := by
        simp only [List.filter_cons, hc] at ha
        simp at ha
        omega
      simp only [evalStepChecked, evalStep, hc]
      rw [bumpAce_mk s a (by omega)]
      rw [some_bind_eq]
      have hs2 : s + (rest.map fun x => fixedValue x.value).sum ≤ u32Max := by
        rw [hc] at hs'
        simp only [fixedValue] at hs' ⊢
        omega
      exact ih s (a + 1) hs2 ha'
    all_goals
      have ha2 : a + (rest.filter fun x => x.value = Rank.Ace).length ≤ u32Max := by
        simp only [List.filter_cons, hc] at ha
        simp at ha
        omega
    all_goals
      rw [hc] at hs'
      simp only [fixedValue] at hs'
      simp only [evalStepChecked, evalStep, hc]
      rw [bumpSum_mk s a _ (by omega)]
      rw [some_bind_eq]
      exact ih _ _ (by simp only [fixedValue]; omega) ha2

theorem addAcesChecked_some : ∀ (k sum : Nat), sum + 11 * k ≤ u32Max →
    addAcesChecked k sum = some (addAces k sum) := by
  intro k
  induction k with
  | zero =>
    intro sum _
    rfl
  | succ k ih =>
    intro sum h
    have h11 : sum + 11 ≤ u32Max := by omega
    simp only [addAcesChecked, addAces]
    rw [show checkedAdd32 sum 11 = some (sum + 11) by simp [checkedAdd32, h11]]
    rw [some_bind_eq]
    by_cases hle : sum + 11 ≤ 21
    · rw [if_pos hle, if_pos hle]
      exact ih (sum + 11) (by omega)
    · rw [if_neg hle, if_neg hle]
      rw [show checkedAdd32 sum 1 = some (sum + 1) by
        simp only [checkedAdd32]
        rw [if_pos (by omega)]]
      rw [some_bind_eq]
      exact ih (sum + 1) (by omega)

theorem convertAcesChecked_some : ∀ (sum k : Nat),
    convertAcesChecked sum k = some (convertAces sum k) := by
  intro sum k
  induction k generalizing sum with
  | zero => rfl
  | succ k ih =>
    simp only [convertAcesChecked, convertAces]
    by_cases hgt : sum > 21
    · rw [if_pos hgt, if_pos hgt]
      rw [show checkedSub32 sum 10 = some (sum - 10) by
        simp only [checkedSub32]
        rw [if_pos (by omega)]]
      rw [some_bind_eq]
      exact ih (sum - 10)
    · rw [if_neg hgt, if_neg hgt]

theorem foldlM_evalStepChecked_overflow :
    ∀ (k s a : Nat), s ≤ u32Max → u32Max < s + 2 * k →
      (List.replicate k twoOfHearts).foldlM (m := Option) evalStepChecked (s, a)
        = none := by
  intro k
  induction k with
  | zero =>
    intro s a hs hover
    exact absurd hs (by omega)
  | succ k ih =>
    intro s a hs hover
    rw [List.replicate_succ, List.foldlM_cons]
    rw [show evalStepChecked (s, a) twoOfHearts = bumpSum (s, a) 2 from rfl]
    by_cases h2 : s + 2 ≤ u32Max
    · rw [bumpSum_mk s a 2 h2, some_bind_eq]
      exact ih (s + 2) a h2 (by omega)
    · rw [show bumpSum (s, a) 2 = none by simp [bumpSum, checkedAdd32, h2]]
      rfl

theorem evaluateChecked_eq (h : Hand)
    (hb : baseSum h + 11 * aceCount h ≤ u32Max) :
    evaluateChecked h = some h.evaluate := by
  have hbase : baseSum h ≤ u32Max := by omega
  have hace : aceCount h ≤ u32Max := by omega
  rw [evaluate_eq]
  show h.cards.foldlM (m := Option) evalStepChecked (0, 0) >>= _ = _
  rw [foldlM_evalStepChecked h.cards 0 0
      (by simpa [baseSum] using hbase) (by simpa [aceCount] using hace)]
  rw [some_bind_eq, foldl_evalStep]
  simp only [Nat.zero_add]
  rw [addAcesChecked_some _ _ (by simpa [baseSum, aceCount] using hb)]
  rw [some_bind_eq]
  exact convertAcesChecked_some _ _

end C25

/-! ## Proofs: c19 Caesar cipher -/

namespace C19

theorem toNat_ofNat_of_lt {n : Nat} (h : n < 128) : (Char.ofNat n).toNat = n := by
  have hv : n.isValidChar := Or.inl (by omega)
  simp [Char.ofNat, hv, Char.ofNatAux, Char.toNat, UInt32.toNat, BitVec.toNat_ofNatLt]

theorem shift_char_shift_char (c : Char) (s : Int) :
    shift_char (shift_char c s) (-s) = c := by
  by_cases hc : c.toNat ≤ 127
  · have h0 : (0 : Int) ≤ ((c.toNat : Int) + s) % 128 :=
      Int.emod_nonneg _ (by norm_num)
    have h1 : ((c.toNat : Int) + s) % 128 < 128 :=
      Int.emod_lt_of_pos _ (by norm_num)
    have hstep : shift_char c s = Char.ofNat (((c.toNat : Int) + s) % 128).toNat := by
      simp [shift_char, hc]
    have htn : (Char.ofNat (((c.toNat : Int) + s) % 128).toNat).toNat
        = (((c.toNat : Int) + s) % 128).toNat :=
      toNat_ofNat_of_lt (by omega)
    have hle : (Char.ofNat (((c.toNat : Int) + s) % 128).toNat).toNat ≤ 127 := by
      rw [htn]; omega
    have hfinal : (((((c.toNat : Int) + s) % 128).toNat : Int) + -s) % 128
        = (c.toNat : Int) := by
      rw [Int.toNat_of_nonneg h0]
      have hcle : (c.toNat : Int) ≤ 127 := by exact_mod_cast hc
      have hc0 : (0 : Int) ≤ (c.toNat : Int) := Int.natCast_nonneg _
      omega
    rw [hstep]
    simp only [shift_char, hle, not_true_eq_false, if_false]
    rw [htn, hfinal]
    simp [Char.ofNat_toNat]
  · simp [shift_char, hc]

theorem shift_char_non_ascii (c : Char) (s : Int) (h : 127 < c.toNat) :
    shift_char c s = c := by
  simp [shift_char, Nat.not_le.mpr h, Nat.not_le_of_lt h]

theorem shiftCharChecked_some (c : Char) (s : Int)
    (h1 : i32Min ≤ s) (h2 : s ≤ i32Max - 127) :
    shiftCharChecked c s = some (shift_char c s) := by
  by_cases hc : c.toNat ≤ 127
  · have hle : (c.toNat : Int) ≤ 127 := by exact_mod_cast hc
    have hpos : (0 : Int) ≤ (c.toNat : Int) := Int.natCast_nonneg _
    have hadd : checkedAddI32 (c.toNat : Int) s = some ((c.toNat : Int) + s) := by
      have hb : i32Min ≤ (c.toNat : Int) + s ∧ (c.toNat : Int) + s ≤ i32Max := by
        simp only [i32Min, i32Max] at h1 h2 ⊢
        omega
      simp [checkedAddI32, hb]
    simp [shiftCharChecked, shift_char, hc, hadd]
  · simp [shiftCharChecked, shift_char, hc]

theorem applyCipherChecked_some (text : List Char) (s : Int)
    (h1 : i32Min ≤ s) (h2 : s ≤ i32Max - 127) :
    applyCipherChecked text s = some (apply_cipher text s) := by
  induction text with
  | nil => rfl
  | cons c rest ih =>
    show (shiftCharChecked c s >>= fun x =>
        applyCipherChecked rest s >>= fun xs => some (x :: xs)) = _
    rw [shiftCharChecked_some c s h1 h2, some_bind_eq, ih, some_bind_eq]
    rfl

end C19

/-! ## Proofs: c12 factor calculator -/

namespace C12

theorem factorStepChecked_some (n i : Nat) (hi : i ≠ 0) :
    factorStepChecked n i = some (factorStep n i) := by
  by_cases hm : n % i = 0 <;> by_cases hq : i ≠ n / i <;>
    simp [factorStepChecked, factorStep, checkedMod64, checkedDiv64, hi, hm, hq]

theorem foldlM_factorStep (n : Nat) :
    ∀ l : List Nat, (∀ i ∈ l, i ≠ 0) → ∀ acc : List Nat,
      (l.foldlM (m := Option)
        (fun acc i => do
          let step ← factorStepChecked n i
          pure (acc ++ step)) acc)
        = some (acc ++ l.flatMap (factorStep n)) := by
  intro l
  induction l with
  | nil =>
    intro _ acc
    simp
  | cons i rest ih =>
    intro hl acc
    rw [List.foldlM_cons]
    show (factorStepChecked n i >>= fun step => some (acc ++ step)) >>= _ = _
    rw [factorStepChecked_some n i (hl i (by simp)), some_bind_eq, some_bind_eq]
    rw [ih (fun j hj => hl j (List.mem_cons_of_mem _ hj)) (acc ++ factorStep n i)]
    simp [List.flatMap_cons, List.append_assoc]

theorem factorsLoopChecked_some (n bound : Nat) :
    factorsLoopChecked n bound = some (factorsLoop n bound) := by
  unfold factorsLoopChecked factorsLoop
  rw [foldlM_factorStep n (List.range' 1 bound) (fun i hi => ?_) []]
  · simp
  · have hmem := List.mem_range'_1.mp hi
    omega

theorem factorsChecked_some (n bound : Nat) :
    factorsChecked n bound = some (factors n bound) := by
  rw [factorsChecked, factorsLoopChecked_some n bound]
  rfl

end C12

/-! ## Proofs: c26 Mastermind -/

namespace C26

theorem countPositions_foldl (l : List (Char × Char)) (acc : Nat) :
    l.foldl (fun a p => if p.1 = p.2 then a + 1 else a) acc
      = acc + l.foldl (fun a p => if p.1 = p.2 then a + 1 else a) 0 := by
  induction l generalizing acc with
  | nil => simp
  | cons p l ih =>
    simp only [List.foldl_cons]
    by_cases hp : p.1 = p.2
    · simp only [hp, if_true]
      rw [ih 1, ih (acc + 1)]
      omega
    · simp only [hp, if_false]
      exact ih acc

theorem countPositions_cons (a b : Char) (g t : List Char) :
    countPositions (a :: g) (b :: t)
      = (if a = b then 1 else 0) + countPositions g t := by
  simp only [countPositions, List.zip_cons_cons, List.foldl_cons]
  by_cases h : a = b
  · simpa [h] using countPositions_foldl (g.zip t) 1
  · simp [h]

theorem countPositions_le_card_inter (g t : List Char) :
    countPositions g t
      ≤ Multiset.card ((g : Multiset Char) ∩ (t : Multiset Char)) := by
  induction g generalizing t with
  | nil => simp [countPositions]
  | cons a g ih =>
    cases t with
    | nil => simp [countPositions]
    | cons b t =>
      rw [countPositions_cons]
      by_cases hab : a = b
      · subst hab
        have hcard : ((a :: g : List Char) : Multiset Char)
              ∩ ((a :: t : List Char) : Multiset Char)
            = a ::ₘ ((g : Multiset Char) ∩ (t : Multiset Char)) := by
          ext x
          simp only [Multiset.count_inter, Multiset.count_cons, ← Multiset.cons_coe]
          by_cases hx : x = a <;> simp [hx] <;> omega
        rw [hcard, Multiset.card_cons]
        have := ih t
        simp only [if_true]
        omega
      · have hmono : (g : Multiset Char) ∩ (t : Multiset Char)
            ≤ ((a :: g : List Char) : Multiset Char)
              ∩ ((b :: t : List Char) : Multiset Char) := by
          refine Multiset.le_inter ?_ ?_
          · exact le_trans (Multiset.inter_le_left _ _)
              (by rw [← Multiset.cons_coe]; exact Multiset.le_cons_self _ _)
          · exact le_trans (Multiset.inter_le_right _ _)
              (by rw [← Multiset.cons_coe]; exact Multiset.le_cons_self _ _)
        have := Multiset.card_le_card hmono
        have := ih t
        simp only [hab, if_false]
        omega

theorem sum_map_nodup_eq_sum_toFinset (l : List Char) (f : Char → Nat)
    (hl : l.Nodup) :
    (l.map f).sum = ∑ c ∈ l.toFinset, f c := by
  induction l with
  | nil => simp
  | cons a l ih =>
    have ha : a ∉ l := (List.nodup_cons.mp hl).1
    have hnd : l.Nodup := (List.nodup_cons.mp hl).2
    rw [List.map_cons, List.sum_cons, List.toFinset_cons,
      Finset.sum_insert (by simpa using ha), ih hnd]

theorem countDigits_eq_sum_toFinset (g t : List Char) :
    countDigits g t = ∑ c ∈ g.toFinset, min (g.count c) (t.count c) := by
  have hfin : g.dedup.toFinset = g.toFinset := by
    ext x
    simp [List.mem_dedup]
  rw [countDigits,
    sum_map_nodup_eq_sum_toFinset g.dedup _ (List.nodup_dedup g), hfin]

theorem countDigits_eq_card_inter (g t : List Char) :
    countDigits g t
      = Multiset.card ((g : Multiset Char) ∩ (t : Multiset Char)) := by
  rw [countDigits_eq_sum_toFinset,
    ← Multiset.toFinset_sum_count_eq ((g : Multiset Char) ∩ (t : Multiset Char))]
  have hsub : ((g : Multiset Char) ∩ (t : Multiset Char)).toFinset ⊆ g.toFinset := by
    intro x hx
    have hx' : x ∈ (g : Multiset Char) ∩ (t : Multiset Char) :=
      Multiset.mem_toFinset.mp hx
    have : x ∈ (g : Multiset Char) :=
      Multiset.mem_of_le (Multiset.inter_le_left _ _) hx'
    simpa [List.mem_toFinset] using this
  rw [Finset.sum_subset hsub]
  · refine Finset.sum_congr rfl fun x _ => ?_
    simp [Multiset.count_inter]
  · intro x _ hx
    have : Multiset.count x ((g : Multiset Char) ∩ (t : Multiset Char)) = 0 :=
      Multiset.count_eq_zero.mpr fun hmem => hx (Multiset.mem_toFinset.mpr hmem)
    simpa [Multiset.count_inter] using this

theorem countPositions_comm (g t : List Char) :
    countPositions g t = countPositions t g := by
  induction g generalizing t with
  | nil => cases t <;> simp [countPositions]
  | cons a g ih =>
    cases t with
    | nil => simp [countPositions]
    | cons b t =>
      rw [countPositions_cons, countPositions_cons, ih t]
      by_cases h : a = b
      · simp [h]
      · have h' : ¬b = a := fun hba => h hba.symm
        simp [h, h']

end C26

/-! ## Claim theorems -/

namespace Claims

open C25

/-- C5: `Deck::new` returns exactly 52 cards, every (suit, rank) combination
of the 4 suits and 13 ranks appears exactly once, and there are no duplicates. -/
theorem deck_new_c5 :
    Deck.new.cards.length = 52 ∧
    (∀ s : Suite, ∀ r : Rank, Deck.new.cards.count ⟨s, r⟩ = 1) ∧
    Deck.new.cards.Nodup := by decide

/-- C6: `Deck::deal` on a non-empty deck removes and returns the top (last)
card, shrinking the deck by exactly one; on an empty deck it returns `none`
with the deck unchanged, and any number of repeated calls after exhaustion
keeps returning `none` on an empty deck. -/
theorem deck_deal_c6 :
    (∀ d : Deck, d.cards ≠ [] → ∃ c,
        d.deal = (some c, ⟨d.cards.dropLast⟩) ∧
        d.cards = d.cards.dropLast ++ [c] ∧
        d.deal.2.cards.length + 1 = d.cards.length) ∧
    (∀ d : Deck, d.cards = [] → d.deal = (none, d)) ∧
    (∀ n : Nat, (dealRepeat ⟨[]⟩ n).deal = (none, ⟨[]⟩)) := by
  refine ⟨fun d hd => ⟨d.cards.getLast hd, ?_, ?_, ?_⟩, fun d hd => ?_, fun n => ?_⟩
  · simp [Deck.deal, List.getLast?_eq_getLast d.cards hd]
  · exact (List.dropLast_append_getLast hd).symm
  · have := List.length_dropLast d.cards
    have hpos : 0 < d.cards.length := List.length_pos.mpr hd
    simp only [Deck.deal]
    omega
  · cases d
    simp_all [Deck.deal]
  · have hrep : dealRepeat ⟨[]⟩ n = (⟨[]⟩ : Deck) := by
      induction n with
      | zero => rfl
      | succ k ih => simp [dealRepeat, ih, Deck.deal]
    simp [hrep, Deck.deal]

/-- Witness for C6 at concrete decks: a one-card deck and the empty deck. -/
theorem deck_deal_c6_witness :
    (∃ c, (Deck.mk [⟨Suite.Hearts, Rank.Ace⟩]).deal
            = (some c, ⟨(List.dropLast [⟨Suite.Hearts, Rank.Ace⟩] : List Card)⟩) ∧
          ([(⟨Suite.Hearts, Rank.Ace⟩ : Card)] : List Card)
            = List.dropLast [⟨Suite.Hearts, Rank.Ace⟩] ++ [c] ∧
          (Deck.mk [⟨Suite.Hearts, Rank.Ace⟩]).deal.2.cards.length + 1
            = (Deck.mk [⟨Suite.Hearts, Rank.Ace⟩]).cards.length) ∧
    (Deck.mk []).deal = (none, Deck.mk []) :=
  ⟨deck_deal_c6.1 ⟨[⟨Suite.Hearts, Rank.Ace⟩]⟩ (by decide),
   deck_deal_c6.2.1 ⟨[]⟩ rfl⟩

/-- C7 counterexample: `hugeHand` — 2^31 copies of the Two of Hearts —
contains no Ace, yet evaluating it fails: its fixed-value sum is 2^32, so
the `u32` accumulator of pass 1 overflows (a panic in a debug build) and the
checked evaluation returns `none`. "evaluate has no failure conditions" is
therefore false over the full typed input domain. -/
theorem evaluate_no_ace_c7_counterexample :
    aceCount hugeHand = 0 ∧ evaluateChecked hugeHand = none := by
  constructor
  · simp only [aceCount, hugeHand, List.length_eq_zero, List.filter_eq_nil_iff]
    intro c hc
    have hcv := List.eq_of_mem_replicate hc
    subst hcv
    simp [twoOfHearts]
  · have hfold : hugeHand.cards.foldlM (m := Option) evalStepChecked (0, 0) = none :=
      foldlM_evalStepChecked_overflow 2147483648 0 0
        (by norm_num [u32Max]) (by norm_num [u32Max])
    unfold evaluateChecked
    rw [hfold]
    rfl

/-- C7 (amended): for a hand with no Ace, `Hand::evaluate` is exactly the
sum of the cards' fixed values (2–10 face value, 10 for Jack/Queen/King),
and the empty hand evaluates to 0; evaluation has no failure condition
whenever that sum fits in `u32` (the checked evaluation then succeeds with
the same result) — the qualification forced by the counterexample's `u32`
overflow. -/
theorem evaluate_no_ace_c7_amended :
    (∀ h : Hand, (∀ c ∈ h.cards, c.value ≠ Rank.Ace) →
        h.evaluate = (h.cards.map fun c => fixedValue c.value).sum ∧
        (baseSum h ≤ u32Max → evaluateChecked h = some h.evaluate)) ∧
    Hand.new.evaluate = 0 := by
  refine ⟨fun h hnoace => ?_, rfl⟩
  have hace : aceCount h = 0 := by
    simp only [aceCount, List.length_eq_zero, List.filter_eq_nil_iff]
    intro c hc
    simpa using hnoace c hc
  refine ⟨?_, fun hb => evaluateChecked_eq h (by rw [hace]; omega)⟩
  rw [evaluate_eq, hace]
  rfl

/-- Witness for C7 at a concrete Ace-free hand: Two + King. -/
theorem evaluate_no_ace_c7_amended_witness :
    ((Hand.mk [⟨Suite.Hearts, Rank.Two⟩, ⟨Suite.Clubs, Rank.King⟩]).evaluate
      = (((Hand.mk [⟨Suite.Hearts, Rank.Two⟩, ⟨Suite.Clubs, Rank.King⟩]).cards.map
          fun c => fixedValue c.value).sum)) ∧
    evaluateChecked (Hand.mk [⟨Suite.Hearts, Rank.Two⟩, ⟨Suite.Clubs, Rank.King⟩])
      = some (Hand.mk [⟨Suite.Hearts, Rank.Two⟩, ⟨Suite.Clubs, Rank.King⟩]).evaluate :=
  ⟨(evaluate_no_ace_c7_amended.1
      ⟨[⟨Suite.Hearts, Rank.Two⟩, ⟨Suite.Clubs, Rank.King⟩]⟩ (by decide)).1,
   (evaluate_no_ace_c7_amended.1
      ⟨[⟨Suite.Hearts, Rank.Two⟩, ⟨Suite.Clubs, Rank.King⟩]⟩ (by decide)).2 (by decide)⟩

/-- C1 (code bug): on the hand King+Queen+Two+Ace the lone Ace is tentatively
added as 1 (total 23, no Ace added as 11), yet the final loop of
`Hand::evaluate` still subtracts 10, returning 13 — a value not achievable by
any 1-or-11 valuation of the Ace — while the resolution described by the spec
(convert only Aces previously added as 11) yields 23. -/
theorem evaluate_bug_c1 :
    Hand.evaluate bustedHandA = 13 ∧
    specEvaluate bustedHandA = 23 ∧
    (∀ aceVal ∈ [1, 11], baseSum bustedHandA + aceVal ≠ 13) := by decide

/-- C2 (code bug): the hand Ten+Jack+Queen+Ace has exactly one Ace and a
non-Ace sum of 30 > 10, so per the claim the Ace counts as 1 and the score
is 31; `Hand::evaluate` instead returns 21, because the final loop converts
an Ace that was never added as 11. -/
theorem evaluate_bug_c2 :
    aceCount bustedHandB = 1 ∧
    baseSum bustedHandB = 30 ∧
    Hand.evaluate bustedHandB = 21 ∧
    21 ≠ 30 + 1 := by decide

/-- C8: decryption with the negated shift exactly inverts encryption:
`apply_cipher (apply_cipher text s) (-s) = text` for every text and every
shift for which the character-code additions stay within `i32`
(`|s| ≤ 2^31 - 128` keeps `pos + s` and `pos + (-s)` in range for every
ASCII position `pos ≤ 127`); non-ASCII characters are left unchanged by
both passes. -/
theorem cipher_roundtrip_c8 (text : List Char) (s : Int)
    (_hs : s.natAbs ≤ 2 ^ 31 - 128) :
    C19.apply_cipher (C19.apply_cipher text s) (-s) = text ∧
    (∀ c ∈ text, 127 < c.toNat →
        C19.shift_char c s = c ∧ C19.shift_char c (-s) = c) := by
  refine ⟨?_, fun c _ hna => ⟨C19.shift_char_non_ascii c s hna,
    C19.shift_char_non_ascii c (-s) hna⟩⟩
  simp only [C19.apply_cipher, List.map_map]
  have hid : (fun c => C19.shift_char c (-s)) ∘ (fun c => C19.shift_char c s) = id := by
    funext c
    exact C19.shift_char_shift_char c s
  rw [hid, List.map_id]

/-- Witness for C8: round-trip of "ab" under shift 3. -/
theorem cipher_roundtrip_c8_witness :
    ((3 : Int).natAbs ≤ 2 ^ 31 - 128) ∧
    (C19.apply_cipher (C19.apply_cipher ['a', 'b'] 3) (-3) = ['a', 'b'] ∧
     (∀ c ∈ ['a', 'b'], 127 < c.toNat →
        C19.shift_char c 3 = c ∧ C19.shift_char c (-3) = c)) :=
  ⟨by norm_num, cipher_roundtrip_c8 ['a', 'b'] 3 (by norm_num)⟩

/-- C3: in the game loop of c25 `main`, (1) a hit that makes the player's
hand evaluate above 21 ends the game at once with `Bust` — an immediate
player loss distinct from every score-comparing `Compared` outcome,
regardless of the remaining moves; (2) starting from a non-busted hand (as
`main` does, see (3)), every `Compared` outcome — reachable only via Stand —
has verdict `compare playerScore dealerScore` (higher wins, equal ties) and
both compared scores are at most 21; (3) every two-card hand, in particular
`main`'s initial player hand and the dealer's fixed two-card hand, evaluates
to at most 21. -/
theorem game_loop_c3 :
    (∀ (ph : Hand) (d : Deck) (ms : List Move) (c : Card) (d1 : Deck),
        d.deal = (some c, d1) → (ph.add_card c).evaluate > 21 →
        gameLoop ph d (Move.Hit :: ms) = GameResult.Bust (ph.add_card c) ∧
        ∀ ps ds o, GameResult.Bust (ph.add_card c) ≠ GameResult.Compared ps ds o) ∧
    (∀ (ph : Hand) (d : Deck) (ms : List Move) (ps ds : Nat) (o : Ordering),
        ph.evaluate ≤ 21 →
        gameLoop ph d ms = GameResult.Compared ps ds o →
        o = compare ps ds ∧ ps ≤ 21 ∧ ds ≤ 21) ∧
    (∀ c1 c2 : Card, ((Hand.new.add_card c1).add_card c2).evaluate ≤ 21) := by
  refine ⟨fun ph d ms c d1 hdeal hbust => ⟨?_, by simp⟩,
    fun ph d ms ps ds o hp heq => gameLoop_compared ms ph d ps ds o hp heq,
    two_card_evaluate_le⟩
  rw [gameLoop_hit, hdeal]
  simp [hbust]

/-- Witness for C3: a Ten+Ten hand hitting a Five busts at 25; a Ten+Five
hand standing against a Two+Three dealer hand compares 15 to 5. -/
theorem game_loop_c3_witness :
    (gameLoop twentyHand fiveDeck [Move.Hit]
        = GameResult.Bust (twentyHand.add_card ⟨Suite.Hearts, Rank.Five⟩) ∧
      ∀ ps ds o, GameResult.Bust (twentyHand.add_card ⟨Suite.Hearts, Rank.Five⟩)
          ≠ GameResult.Compared ps ds o) ∧
    (Ordering.gt = compare 15 5 ∧ 15 ≤ 21 ∧ 5 ≤ 21) :=
  ⟨game_loop_c3.1 twentyHand fiveDeck [] ⟨Suite.Hearts, Rank.Five⟩ ⟨[]⟩
      (by decide) (by decide),
   game_loop_c3.2.1 fifteenHand smallDeck [Move.Stand] 15 5 Ordering.gt
      (by decide) (by decide)⟩

/-- C4 counterexample: `i32::MAX = 2^31 - 1` is a value of `shift_char`'s
typed input domain, and on the ASCII character `'a'` the addition
`pos + shift = 97 + (2^31 - 1)` overflows `i32` (a panic in a debug build),
so `shift_char` is not total over its full typed domain: the checked model
returns `none` instead of a character. -/
theorem totality_c4_counterexample :
    C19.i32Min ≤ C19.i32Max ∧
    C19.shiftCharChecked 'a' C19.i32Max = none := by
  constructor
  · decide
  · decide

/-- C4 (amended): totality holds with the two genuine arithmetic limits made
explicit. `factors` never fails for any `u64` input and any loop bound (its
`%` and `/` are guarded by `i ≥ 1`); `shift_char` and `apply_cipher` never
fail whenever the `i32` addition `pos + shift` stays in range — guaranteed
for every shift `i32Min ≤ s ≤ i32Max - 127` — but overflow at shifts near
`i32::MAX` (see the counterexample); `Hand::evaluate` never fails for every
hand whose worst-case raw total `baseSum + 11 * aceCount` fits in `u32` (in
particular every hand dealt from the 52-card deck), though its `u32` sum
would overflow on synthetic hands of several hundred million cards. -/
theorem totality_c4 :
    (∀ n bound : Nat, C12.factorsChecked n bound = some (C12.factors n bound)) ∧
    (∀ (c : Char) (s : Int), C19.i32Min ≤ s → s ≤ C19.i32Max - 127 →
        C19.shiftCharChecked c s = some (C19.shift_char c s)) ∧
    (∀ (text : List Char) (s : Int), C19.i32Min ≤ s → s ≤ C19.i32Max - 127 →
        C19.applyCipherChecked text s = some (C19.apply_cipher text s)) ∧
    (∀ h : Hand, baseSum h + 11 * aceCount h ≤ u32Max →
        evaluateChecked h = some h.evaluate) :=
  ⟨C12.factorsChecked_some,
   C19.shiftCharChecked_some,
   C19.applyCipherChecked_some,
   evaluateChecked_eq⟩

/-- Witness for C4 at concrete inputs: `factors 12` with bound 3, shift 3 on
`'a'` and on "ab", and the Ten+Jack+Queen+Ace hand. -/
theorem totality_c4_witness :
    C12.factorsChecked 12 3 = some (C12.factors 12 3) ∧
    C19.shiftCharChecked 'a' 3 = some (C19.shift_char 'a' 3) ∧
    C19.applyCipherChecked ['a', 'b'] 3 = some (C19.apply_cipher ['a', 'b'] 3) ∧
    evaluateChecked bustedHandB = some (Hand.evaluate bustedHandB) :=
  ⟨totality_c4.1 12 3,
   totality_c4.2.1 'a' 3 (by decide) (by decide),
   totality_c4.2.2.1 ['a', 'b'] 3 (by decide) (by decide),
   totality_c4.2.2.2 bustedHandB (by decide)⟩

/-- C9: for every pair of guess and target strings, the Mastermind score has
`correct_positions ≤ correct_digits`: a position match consumes one shared
occurrence of its character, so position matches never outnumber digit
matches. -/
theorem mastermind_le_c9 (guess target : List Char) :
    (C26.evaluate_guess guess target).correct_positions
      ≤ (C26.evaluate_guess guess target).correct_digits := by
  show C26.countPositions guess target ≤ C26.countDigits guess target
  rw [C26.countDigits_eq_card_inter]
  exact C26.countPositions_le_card_inter guess target

/-- C10: `evaluate_guess` is symmetric in its two arguments, in both the
`correct_digits` and the `correct_positions` fields. -/
theorem mastermind_symm_c10 (g t : List Char) :
    (C26.evaluate_guess g t).correct_digits
      = (C26.evaluate_guess t g).correct_digits ∧
    (C26.evaluate_guess g t).correct_positions
      = (C26.evaluate_guess t g).correct_positions := by
  constructor
  · show C26.countDigits g t = C26.countDigits t g
    rw [C26.countDigits_eq_card_inter, C26.countDigits_eq_card_inter,
      Multiset.inter_comm]
  · exact C26.countPositions_comm g t

end Claims
